import Mathlib

/-!
# Shallow embedding of the be-tree map (src/lib.rs)

The repository implements an in-memory ordered map as a split-only multiway
search tree.  This file embeds the tree engine in Lean:

* `Node K V` mirrors the Rust `enum Node<K, V>` with its two variants
  `Branch { pivots: Vec<Pivot<K, V>> }` and `Leaf(LeafNode<K, V>)`.
  The pivot vector is embedded as the mutually inductive `PivotList K V`
  (a `Pivot` is a boundary key together with its owned child).
* A `LeafNode` is embedded by its valid prefix `elements[0..len]` as a
  `List (K × V)`.  Slots at index `len` and beyond come from
  `mem::uninitialized()` and are never read by any public operation; the one
  function that could read such a slot, `min_key` on a leaf with `len = 0`,
  fails its `debug_assert_ne!(leaf.len, 0)` and is modelled as an error.
* Rust panics and undefined behaviour are modelled by `Option`: a function
  that can panic returns `none` in exactly the situations in which the Rust
  code panics (or reads undefined data).  In particular
  `LeafNode::from` calls `clone_from_slice`, which panics unless the source
  slice has the same length as the 4-slot destination array, and it never
  assigns `len`, so on the (hypothetical) non-panicking path the resulting
  valid prefix is empty.
* The key type is abstract; every comparison in the source goes through
  `Ord`/`PartialOrd`, embedded as an explicit comparison function
  `kcmp : K → K → Ordering` (the Rust `key <= p.min_key` is
  `kcmp key mk ≠ .gt`).  The instantiation `icmp` is the standard total
  order on `Int`.
-/

namespace BeTreeModel

/-- The compile-time leaf capacity, `const max_values_per_leaf: usize = 4`. -/
def maxValuesPerLeaf : Nat := 4

mutual

/-- `enum Node<K, V> { Branch { pivots: Vec<Pivot<K, V>> }, Leaf(LeafNode<K, V>) }`.
A leaf is embedded by the valid prefix `elements[0..len]` of its entry array. -/
inductive Node (K V : Type) : Type where
| branch : PivotList K V → Node K V
| leaf : List (K × V) → Node K V

/-- The pivot vector of a branch: each element is a
`Pivot { min_key: K, child: Box<Node<K, V>> }`. -/
inductive PivotList (K V : Type) : Type where
| nil : PivotList K V
| cons : K → Node K V → PivotList K V → PivotList K V

end

section Ops

variable {K V : Type} (kcmp : K → K → Ordering)

/-- Rust `key <= min_key` on a `K : Ord`, i.e. `cmp(key, min_key) != Greater`. -/
def kle (a b : K) : Bool :=
  match kcmp a b with
  | Ordering.gt => false
  | _ => true

/-- Model of `slice::binary_search_by_key(&key, |&(k, _)| k)` over the valid
prefix of a leaf: `Sum.inl i` is `Ok(i)` (the key was found at index `i`) and
`Sum.inr i` is `Err(i)` (the key is absent; `i` is the insertion index).
The linear scan below returns exactly the result the Rust binary search is
documented to return on a slice that is sorted by key, which leaf prefixes
always are. -/
def searchIdx : List (K × V) → K → Nat ⊕ Nat
  | [], _ => Sum.inr 0
  | (k, _) :: rest, key =>
    match kcmp k key with
    | Ordering.lt =>
      match searchIdx rest key with
      | Sum.inl i => Sum.inl (i + 1)
      | Sum.inr i => Sum.inr (i + 1)
    | Ordering.eq => Sum.inl 0
    | Ordering.gt => Sum.inr 0

end Ops

/-- `unsafe fn slice_insert`: shift the elements at indices `≥ idx` one slot to
the right and write `val` at `idx`, seen on the valid prefix (the caller
increments `len` right after, which extends the prefix by the shifted slot). -/
def slice_insert {A : Type} : List A → Nat → A → List A
  | l, 0, a => a :: l
  | [], _ + 1, a => [a]
  | x :: l, i + 1, a => x :: slice_insert l i a

/-- `unsafe fn slice_remove`: shift the elements at indices `> idx` one slot to
the left, seen on the valid prefix (the caller decrements `len` right after,
which drops the stale last slot from the prefix). -/
def slice_remove {A : Type} : List A → Nat → List A
  | [], _ => []
  | _ :: l, 0 => l
  | x :: l, i + 1 => x :: slice_remove l i

/-- `LeafNode::from(items)`: starts from `LeafNode::empty()` (whose `len` is 0)
and calls `elements.clone_from_slice(items)`.  `clone_from_slice` panics unless
`items.len()` equals the length of the 4-slot `elements` array, and `len` is
never assigned, so a non-panicking call yields a leaf whose valid prefix is
empty. -/
def leafFrom {K V : Type} (items : List (K × V)) : Option (List (K × V)) :=
  if items.length = maxValuesPerLeaf then some [] else none

/-- `Node::min_key`: on a branch, `p[0].min_key` (an index panic when the pivot
vector is empty); on a leaf, `elements[0].0` guarded by
`debug_assert_ne!(leaf.len, 0)` (a failed assertion / read of an uninitialized
slot when the leaf is empty). -/
def Node.min_key {K V : Type} : Node K V → Option K
  | Node.branch PivotList.nil => none
  | Node.branch (PivotList.cons mk _ _) => some mk
  | Node.leaf [] => none
  | Node.leaf ((k, _) :: _) => some k

mutual

/-- `Node::insert`.  At a branch, route via the pivot list; at a leaf, binary
search the valid prefix, then insert in place, replace in place, or split.
The `Option` is `none` exactly when the Rust code panics. -/
def Node.insert {K V : Type} (kcmp : K → K → Ordering) :
    Node K V → K → V → Option (Node K V)
  | Node.branch pivots, key, value =>
    (PivotList.insert kcmp pivots key value).map Node.branch
  | Node.leaf entries, key, value =>
    match searchIdx kcmp entries key with
    | Sum.inr i =>
      if entries.length < maxValuesPerLeaf then
        -- space left: slice_insert at the reported index, then len += 1
        some (Node.leaf (slice_insert entries i (key, value)))
      else
        -- split: both halves go through LeafNode::from, whose
        -- clone_from_slice panics on the half-length slices; the new branch
        -- (never reached at runtime) holds the two halves in ascending order
        -- and the triggering (key, value) pair is not re-inserted.
        match leafFrom (entries.take (maxValuesPerLeaf / 2)) with
        | none => none
        | some leftEntries =>
          match leafFrom (entries.drop (maxValuesPerLeaf / 2)) with
          | none => none
          | some rightEntries =>
            match Node.min_key (Node.leaf leftEntries : Node K V) with
            | none => none
            | some lmk =>
              match Node.min_key (Node.leaf rightEntries : Node K V) with
              | none => none
              | some rmk =>
                some (Node.branch
                  (PivotList.cons lmk (Node.leaf leftEntries)
                    (PivotList.cons rmk (Node.leaf rightEntries) PivotList.nil)))
    | Sum.inl i => some (Node.leaf (entries.set i (key, value)))

/-- The branch arm of `Node::insert`: find the first pivot with
`key <= p.min_key`; if found, lower its boundary to `key` and insert into its
child; otherwise push a new rightmost pivot whose child is `LeafNode::empty()`
(the inserted pair is dropped). -/
def PivotList.insert {K V : Type} (kcmp : K → K → Ordering) :
    PivotList K V → K → V → Option (PivotList K V)
  | PivotList.nil, key, _value =>
    some (PivotList.cons key (Node.leaf []) PivotList.nil)
  | PivotList.cons mk c rest, key, value =>
    if kle kcmp key mk then
      (Node.insert kcmp c key value).map (fun c2 => PivotList.cons key c2 rest)
    else
      (PivotList.insert kcmp rest key value).map (fun r => PivotList.cons mk c r)

end

mutual

/-- `Node::delete`.  At a branch, route via the pivot list; at a leaf with
`len > 0`, binary search and remove on a hit (`slice_remove`, then `len -= 1`);
otherwise a no-op. -/
def Node.delete {K V : Type} (kcmp : K → K → Ordering) :
    Node K V → K → Option (Node K V)
  | Node.branch pivots, key => (PivotList.delete kcmp pivots key).map Node.branch
  | Node.leaf entries, key =>
    if 0 < entries.length then
      match searchIdx kcmp entries key with
      | Sum.inr _ => some (Node.leaf entries)
      | Sum.inl i => some (Node.leaf (slice_remove entries i))
    else some (Node.leaf entries)

/-- The branch arm of `Node::delete`: find the first pivot with
`key <= p.min_key`; if found, delete from its child and then refresh the
boundary to `child.min_key()` (which panics when the child became empty);
otherwise a no-op. -/
def PivotList.delete {K V : Type} (kcmp : K → K → Ordering) :
    PivotList K V → K → Option (PivotList K V)
  | PivotList.nil, _ => some PivotList.nil
  | PivotList.cons mk c rest, key =>
    if kle kcmp key mk then
      match Node.delete kcmp c key with
      | none => none
      | some c2 =>
        match Node.min_key c2 with
        | none => none
        | some mk2 => some (PivotList.cons mk2 c2 rest)
    else
      (PivotList.delete kcmp rest key).map (fun r => PivotList.cons mk c r)

end

mutual

/-- `Node::get`: a pure descent, routing at branches and binary searching the
valid prefix at leaves (a leaf with `len = 0` reports absent). -/
def Node.get {K V : Type} (kcmp : K → K → Ordering) : Node K V → K → Option V
  | Node.branch pivots, key => PivotList.get kcmp pivots key
  | Node.leaf entries, key =>
    if 0 < entries.length then
      match searchIdx kcmp entries key with
      | Sum.inr _ => none
      | Sum.inl i => (entries[i]?).map Prod.snd
    else none

/-- The branch arm of `Node::get`: descend into the first pivot with
`key <= p.min_key`, or report absent when there is none. -/
def PivotList.get {K V : Type} (kcmp : K → K → Ordering) :
    PivotList K V → K → Option V
  | PivotList.nil, _ => none
  | PivotList.cons mk c rest, key =>
    if kle kcmp key mk then Node.get kcmp c key else PivotList.get kcmp rest key

end

/-- `pub struct BeTree<K, V> { root: Node<K, V> }`. -/
structure BeTree (K V : Type) : Type where
  root : Node K V

/-- `BeTree::new()`: the root is `LeafNode::empty()`. -/
def BeTree.new {K V : Type} : BeTree K V := ⟨Node.leaf []⟩

/-- `BeTree::clear`: on a leaf root, set `len = 0` (the stale entry slots are
no longer part of the valid prefix); otherwise replace the root with a fresh
empty leaf. -/
def BeTree.clear {K V : Type} : BeTree K V → BeTree K V
  | ⟨Node.leaf _⟩ => ⟨Node.leaf []⟩
  | ⟨Node.branch _⟩ => ⟨Node.leaf []⟩

/-- `BeTree::insert`: delegate to the root. -/
def BeTree.insert {K V : Type} (kcmp : K → K → Ordering) (t : BeTree K V)
    (key : K) (value : V) : Option (BeTree K V) :=
  (Node.insert kcmp t.root key value).map BeTree.mk

/-- `BeTree::delete`: delegate to the root. -/
def BeTree.delete {K V : Type} (kcmp : K → K → Ordering) (t : BeTree K V)
    (key : K) : Option (BeTree K V) :=
  (Node.delete kcmp t.root key).map BeTree.mk

/-- `BeTree::get`: delegate to the root. -/
def BeTree.get {K V : Type} (kcmp : K → K → Ordering) (t : BeTree K V)
    (key : K) : Option V :=
  Node.get kcmp t.root key

/-- The standard total order on `Int`, the `Ord::cmp` of an integer key type. -/
def icmp (a b : Int) : Ordering :=
  if a < b then Ordering.lt else if a = b then Ordering.eq else Ordering.gt

/-- A comparison for a key type whose `Ord`/`PartialEq` compare only part of
the key object (here: the first component; the second component plays the role
of object identity).  Such keys are `==`-equal without being identical, the
situation the documentation of `BeTree::insert` talks about. -/
def tagcmp (a b : Int × Int) : Ordering := icmp a.1 b.1

/-! ## Specification-level helpers

These are not part of the source; they are simple recursive functions used to
state and prove properties of the embedded operations. -/

/-- Association lookup on a leaf prefix (first entry whose key is `key`). -/
def lookupKey {V : Type} : List (Int × V) → Int → Option V
  | [], _ => none
  | (k, v) :: rest, key => if k = key then some v else lookupKey rest key

/-- Removal of the first entry whose key is `key` from a leaf prefix. -/
def eraseKey {V : Type} : List (Int × V) → Int → List (Int × V)
  | [], _ => []
  | (k, v) :: rest, key => if k = key then rest else (k, v) :: eraseKey rest key

/-- Modelled from the spec: the routing rule of section 4.2, "the selected
child is the first pivot (in ascending order) whose boundary is ≥ the key",
returning the selected child subtree (or nothing when the key exceeds every
boundary). -/
def routeFirstGE {K V : Type} (kcmp : K → K → Ordering) :
    PivotList K V → K → Option (Node K V)
  | PivotList.nil, _ => none
  | PivotList.cons mk c rest, key =>
    if kle kcmp key mk then some c else routeFirstGE kcmp rest key

/-- The boundary keys of a pivot list, in order. -/
def PivotList.keys {K V : Type} : PivotList K V → List K
  | PivotList.nil => []
  | PivotList.cons mk _ rest => mk :: rest.keys

/-- Strict ascension of a list of integer boundary keys (every element is
smaller than all later ones). -/
def keysSorted : List Int → Bool
  | [] => true
  | x :: xs => (xs.all fun y => decide (x < y)) && keysSorted xs

mutual

/-- Invariant (c): the pivots of every branch node in the subtree are strictly
ascending by boundary key. -/
def nodeBS {V : Type} : Node Int V → Bool
  | Node.leaf _ => true
  | Node.branch ps => keysSorted ps.keys && pivotsAllBS ps

/-- `nodeBS` for every child of a pivot list. -/
def pivotsAllBS {V : Type} : PivotList Int V → Bool
  | PivotList.nil => true
  | PivotList.cons _ c rest => nodeBS c && pivotsAllBS rest

end

mutual

/-- Every branch node in the subtree has a non-empty pivot list. -/
def nodePNE {V : Type} : Node Int V → Bool
  | Node.leaf _ => true
  | Node.branch PivotList.nil => false
  | Node.branch (PivotList.cons _ c rest) => nodePNE c && pneList rest

/-- `nodePNE` for every child of a pivot list. -/
def pneList {V : Type} : PivotList Int V → Bool
  | PivotList.nil => true
  | PivotList.cons _ c rest => nodePNE c && pneList rest

end

/-- A leaf prefix is strictly ascending by key (invariants (a) and (b)). -/
def sortedEntries {V : Type} (l : List (Int × V)) : Prop :=
  l.Pairwise fun a b => a.1 < b.1

/-- The states of an integer-keyed map that are reachable through the public
API: `new`, and any sequence of `insert`, `delete` and `clear` calls each of
which completes normally (a panicking call aborts the program, so it yields no
state). -/
inductive Reach {V : Type} : BeTree Int V → Prop where
  | new : Reach BeTree.new
  | insert (t t' : BeTree Int V) (key : Int) (value : V) :
      Reach t → BeTree.insert icmp t key value = some t' → Reach t'
  | delete (t t' : BeTree Int V) (key : Int) :
      Reach t → BeTree.delete icmp t key = some t' → Reach t'
  | clear (t : BeTree Int V) : Reach t → Reach (BeTree.clear t)

/-- The invariant that reachability in fact enforces: because the split path of
`Node::insert` always panics (see `leafFrom`), every reachable state has a
single sorted leaf as its root. -/
def LeafInv {V : Type} (t : BeTree Int V) : Prop :=
  ∃ l, t.root = Node.leaf l ∧ sortedEntries l ∧ l.length ≤ maxValuesPerLeaf

/-! ## Concrete instances used by the witness theorems -/

/-- A two-pivot branch with ascending boundaries 4 and 9. -/
def c6ps : PivotList Int Char :=
  PivotList.cons 4 (Node.leaf [(4, 'p')])
    (PivotList.cons 9 (Node.leaf [(8, 'q')]) PivotList.nil)

/-- A sorted two-pivot branch (boundaries 1 and 5) before an insert of key 3. -/
def c8before : Node Int Char :=
  Node.branch (PivotList.cons 1 (Node.leaf [(1, 'a')])
    (PivotList.cons 5 (Node.leaf [(4, 'b'), (5, 'c')]) PivotList.nil))

/-- The result of inserting (3, z) into c8before: the selected boundary is
lowered to 3 and the pair lands in that child. -/
def c8after : Node Int Char :=
  Node.branch (PivotList.cons 1 (Node.leaf [(1, 'a')])
    (PivotList.cons 3 (Node.leaf [(3, 'z'), (4, 'b'), (5, 'c')]) PivotList.nil))

/-- A one-pivot branch whose leaf holds two entries, before a delete of key 2. -/
def c10before : Node Int Char :=
  Node.branch (PivotList.cons 2 (Node.leaf [(2, 'm'), (7, 'n')]) PivotList.nil)

/-- The result of deleting key 2 from c10before: the pivot survives with its
boundary refreshed to 7. -/
def c10after : Node Int Char :=
  Node.branch (PivotList.cons 7 (Node.leaf [(7, 'n')]) PivotList.nil)

/-! ## Properties -/

theorem icmp_lt {a b : Int} : icmp a b = Ordering.lt ↔ a < b := by
  unfold icmp; split_ifs <;> simp_all

theorem icmp_eq {a b : Int} : icmp a b = Ordering.eq ↔ a = b := by
  unfold icmp
  split_ifs <;> simp_all
  omega

theorem icmp_gt {a b : Int} : icmp a b = Ordering.gt ↔ b < a := by
  unfold icmp; split_ifs <;> simp_all <;> omega

theorem kle_icmp {a b : Int} : kle icmp a b = true ↔ a ≤ b := by
  unfold kle icmp; split_ifs <;> simp_all <;> omega

theorem kle_icmp_false {a b : Int} : kle icmp a b = false ↔ b < a := by
  unfold kle icmp; split_ifs <;> simp_all <;> omega

theorem searchIdx_inl_lookup {V : Type} (l : List (Int × V)) (key : Int) :
    ∀ i, searchIdx icmp l key = Sum.inl i → ∃ v, l[i]? = some (key, v) := by
  induction l with
  | nil => intro i h; simp [searchIdx] at h
  | cons p rest ih =>
    obtain ⟨k, w⟩ := p
    intro i h
    simp only [searchIdx] at h
    cases h0 : icmp k key with
    | lt =>
      rw [h0] at h
      cases h1 : searchIdx icmp rest key with
      | inl j =>
        rw [h1] at h
        simp at h
        obtain ⟨v, hv⟩ := ih j h1
        exact ⟨v, by simpa [← h] using hv⟩
      | inr j => rw [h1] at h; simp at h
    | eq =>
      rw [h0] at h
      simp at h
      subst h
      exact ⟨w, by simp [icmp_eq.mp h0]⟩
    | gt => rw [h0] at h; simp at h


theorem searchIdx_inr_le {V : Type} (l : List (Int × V)) (key : Int) :
    ∀ i, searchIdx icmp l key = Sum.inr i → i ≤ l.length := by
  induction l with
  | nil => intro i h; simp [searchIdx] at h; omega
  | cons p rest ih =>
    obtain ⟨k, w⟩ := p
    intro i h
    simp only [searchIdx] at h
    cases h0 : icmp k key with
    | lt =>
      rw [h0] at h
      cases h1 : searchIdx icmp rest key with
      | inl j => rw [h1] at h; simp at h
      | inr j =>
        rw [h1] at h
        simp at h
        have := ih j h1
        simp [← h]; omega
    | eq => rw [h0] at h; simp at h
    | gt => rw [h0] at h; simp at h; simp [← h]

theorem mem_slice_insert {A : Type} (l : List A) (i : Nat) (a x : A) :
    x ∈ slice_insert l i a → x = a ∨ x ∈ l := by
  induction l generalizing i with
  | nil =>
    intro h
    cases i <;> simp [slice_insert] at h <;> simp [h]
  | cons y rest ih =>
    intro h
    cases i with
    | zero =>
      simp [slice_insert] at h
      rcases h with h | h | h
      · simp [h]
      · simp [h]
      · simp [h]
    | succ j =>
      simp [slice_insert] at h
      rcases h with h | h
      · simp [h]
      · rcases ih j h with h | h <;> simp [h]

theorem length_slice_insert {A : Type} (l : List A) (i : Nat) (a : A) :
    i ≤ l.length → (slice_insert l i a).length = l.length + 1 := by
  induction l generalizing i with
  | nil =>
    intro h
    have : i = 0 := by simpa using h
    subst this
    simp [slice_insert]
  | cons y rest ih =>
    intro h
    cases i with
    | zero => simp [slice_insert]
    | succ j => simp [slice_insert]; exact ih j (by simpa using h)

theorem mem_slice_remove {A : Type} (l : List A) (i : Nat) (x : A) :
    x ∈ slice_remove l i → x ∈ l := by
  induction l generalizing i with
  | nil => intro h; simp [slice_remove] at h
  | cons y rest ih =>
    intro h
    cases i with
    | zero => simp [slice_remove] at h; simp [h]
    | succ j =>
      simp [slice_remove] at h
      rcases h with h | h
      · simp [h]
      · exact List.mem_cons_of_mem _ (ih j h)

theorem length_slice_remove {A : Type} (l : List A) (i : Nat) :
    (slice_remove l i).length ≤ l.length := by
  induction l generalizing i with
  | nil => simp [slice_remove]
  | cons y rest ih =>
    cases i with
    | zero => simp [slice_remove]
    | succ j => simp [slice_remove]; have := ih j; omega

theorem sorted_slice_insert {V : Type} (l : List (Int × V)) (key : Int) (value : V) :
    ∀ i, sortedEntries l → searchIdx icmp l key = Sum.inr i →
      sortedEntries (slice_insert l i (key, value)) := by
  induction l with
  | nil =>
    intro i hs h
    simp [searchIdx] at h
    simp [← h, slice_insert, sortedEntries]
  | cons p rest ih =>
    obtain ⟨k, w⟩ := p
    intro i hs h
    simp only [searchIdx] at h
    rw [sortedEntries, List.pairwise_cons] at hs
    obtain ⟨hk, hrest⟩ := hs
    cases h0 : icmp k key with
    | lt =>
      rw [h0] at h
      cases h1 : searchIdx icmp rest key with
      | inl j => rw [h1] at h; simp at h
      | inr j =>
        rw [h1] at h
        simp at h
        subst h
        rw [slice_insert, sortedEntries, List.pairwise_cons]
        refine ⟨?_, ih j hrest h1⟩
        intro x hx
        rcases mem_slice_insert rest j (key, value) x hx with h | h
        · subst h; exact icmp_lt.mp h0
        · exact hk x h
    | eq => rw [h0] at h; simp at h
    | gt =>
      rw [h0] at h
      simp at h
      subst h
      rw [slice_insert, sortedEntries, List.pairwise_cons]
      constructor
      · intro x hx
        simp at hx
        rcases hx with h | h
        · simp [h]; exact icmp_gt.mp h0
        · exact lt_trans (icmp_gt.mp h0) (hk x h)
      · exact List.Pairwise.cons hk hrest

theorem sorted_set {V : Type} (l : List (Int × V)) (key : Int) (value : V) :
    ∀ i, sortedEntries l → searchIdx icmp l key = Sum.inl i →
      sortedEntries (l.set i (key, value)) := by
  induction l with
  | nil => intro i _ h; simp [searchIdx] at h
  | cons p rest ih =>
    obtain ⟨k, w⟩ := p
    intro i hs h
    simp only [searchIdx] at h
    rw [sortedEntries, List.pairwise_cons] at hs
    obtain ⟨hk, hrest⟩ := hs
    cases h0 : icmp k key with
    | lt =>
      rw [h0] at h
      cases h1 : searchIdx icmp rest key with
      | inl j =>
        rw [h1] at h
        simp at h
        subst h
        rw [List.set_cons_succ, sortedEntries, List.pairwise_cons]
        refine ⟨?_, ih j hrest h1⟩
        intro x hx
        rcases List.mem_or_eq_of_mem_set hx with h | h
        · exact hk x h
        · subst h; exact icmp_lt.mp h0
      | inr j => rw [h1] at h; simp at h
    | eq =>
      rw [h0] at h
      simp at h
      subst h
      have hkey : k = key := icmp_eq.mp h0
      subst hkey
      rw [List.set_cons_zero, sortedEntries, List.pairwise_cons]
      exact ⟨hk, hrest⟩
    | gt => rw [h0] at h; simp at h


theorem get_leaf_of_inl {V : Type} (l : List (Int × V)) (key : Int) (j : Nat)
    (h : searchIdx icmp l key = Sum.inl j) :
    Node.get icmp (Node.leaf l) key = (l[j]?).map Prod.snd := by
  cases l with
  | nil => simp [searchIdx] at h
  | cons p rest => simp [Node.get, h]

theorem get_leaf_of_inr {V : Type} (l : List (Int × V)) (key : Int) (j : Nat)
    (h : searchIdx icmp l key = Sum.inr j) :
    Node.get icmp (Node.leaf l) key = none := by
  cases l with
  | nil => simp [Node.get]
  | cons p rest => simp [Node.get, h]

theorem delete_leaf_of_inl {V : Type} (l : List (Int × V)) (key : Int) (j : Nat)
    (h : searchIdx icmp l key = Sum.inl j) :
    Node.delete icmp (Node.leaf l) key = some (Node.leaf (slice_remove l j)) := by
  cases l with
  | nil => simp [searchIdx] at h
  | cons p rest => simp [Node.delete, h]

theorem delete_leaf_of_inr {V : Type} (l : List (Int × V)) (key : Int) (j : Nat)
    (h : searchIdx icmp l key = Sum.inr j) :
    Node.delete icmp (Node.leaf l) key = some (Node.leaf l) := by
  cases l with
  | nil => simp [Node.delete]
  | cons p rest => simp [Node.delete, h]

theorem lookup_none_of_all_gt {V : Type} (l : List (Int × V)) (key : Int)
    (h : ∀ p ∈ l, key < p.1) : lookupKey l key = none := by
  induction l with
  | nil => rfl
  | cons p rest ih =>
    obtain ⟨k, w⟩ := p
    have hk : key < k := h (k, w) (by simp)
    simp only [lookupKey]
    rw [if_neg (by omega)]
    exact ih fun q hq => h q (List.mem_cons_of_mem _ hq)

theorem erase_eq_of_all_gt {V : Type} (l : List (Int × V)) (key : Int)
    (h : ∀ p ∈ l, key < p.1) : eraseKey l key = l := by
  induction l with
  | nil => rfl
  | cons p rest ih =>
    obtain ⟨k, w⟩ := p
    have hk : key < k := h (k, w) (by simp)
    simp only [eraseKey]
    rw [if_neg (by omega)]
    rw [ih fun q hq => h q (List.mem_cons_of_mem _ hq)]

theorem get_lookup {V : Type} (l : List (Int × V)) (key : Int)
    (hs : sortedEntries l) : Node.get icmp (Node.leaf l) key = lookupKey l key := by
  induction l with
  | nil => simp [Node.get, lookupKey]
  | cons p rest ih =>
    obtain ⟨k, w⟩ := p
    rw [sortedEntries, List.pairwise_cons] at hs
    obtain ⟨hk, hrest⟩ := hs
    cases h0 : icmp k key with
    | eq =>
      have hkey : k = key := icmp_eq.mp h0
      have : searchIdx icmp ((k, w) :: rest) key = Sum.inl 0 := by
        simp [searchIdx, h0]
      rw [get_leaf_of_inl _ _ _ this]
      simp [lookupKey, hkey]
    | gt =>
      have hkey : key < k := icmp_gt.mp h0
      have : searchIdx icmp ((k, w) :: rest) key = Sum.inr 0 := by
        simp [searchIdx, h0]
      rw [get_leaf_of_inr _ _ _ this]
      simp only [lookupKey]
      rw [if_neg (by omega)]
      exact (lookup_none_of_all_gt rest key fun q hq => lt_trans hkey (hk q hq)).symm
    | lt =>
      have hkey : k < key := icmp_lt.mp h0
      have hne : ¬(k = key) := by omega
      cases h1 : searchIdx icmp rest key with
      | inl j =>
        have : searchIdx icmp ((k, w) :: rest) key = Sum.inl (j + 1) := by
          simp [searchIdx, h0, h1]
        rw [get_leaf_of_inl _ _ _ this]
        simp only [lookupKey, if_neg hne]
        rw [← ih hrest, get_leaf_of_inl rest key j h1]
        simp
      | inr j =>
        have : searchIdx icmp ((k, w) :: rest) key = Sum.inr (j + 1) := by
          simp [searchIdx, h0, h1]
        rw [get_leaf_of_inr _ _ _ this]
        simp only [lookupKey, if_neg hne]
        rw [← ih hrest, get_leaf_of_inr rest key j h1]

theorem delete_erase {V : Type} (l : List (Int × V)) (key : Int)
    (hs : sortedEntries l) :
    Node.delete icmp (Node.leaf l) key = some (Node.leaf (eraseKey l key)) := by
  induction l with
  | nil => simp [Node.delete, eraseKey]
  | cons p rest ih =>
    obtain ⟨k, w⟩ := p
    rw [sortedEntries, List.pairwise_cons] at hs
    obtain ⟨hk, hrest⟩ := hs
    cases h0 : icmp k key with
    | eq =>
      have hkey : k = key := icmp_eq.mp h0
      have : searchIdx icmp ((k, w) :: rest) key = Sum.inl 0 := by
        simp [searchIdx, h0]
      rw [delete_leaf_of_inl _ _ _ this]
      simp [slice_remove, eraseKey, hkey]
    | gt =>
      have hkey : key < k := icmp_gt.mp h0
      have : searchIdx icmp ((k, w) :: rest) key = Sum.inr 0 := by
        simp [searchIdx, h0]
      rw [delete_leaf_of_inr _ _ _ this]
      simp only [eraseKey]
      rw [if_neg (by omega)]
      rw [erase_eq_of_all_gt rest key fun q hq => lt_trans hkey (hk q hq)]
    | lt =>
      have hkey : k < key := icmp_lt.mp h0
      have hne : ¬(k = key) := by omega
      cases h1 : searchIdx icmp rest key with
      | inl j =>
        have h2 : searchIdx icmp ((k, w) :: rest) key = Sum.inl (j + 1) := by
          simp [searchIdx, h0, h1]
        rw [delete_leaf_of_inl _ _ _ h2]
        have h3 := delete_leaf_of_inl rest key j h1
        rw [ih hrest] at h3
        have h4 : eraseKey rest key = slice_remove rest j := by
          simpa using h3
        simp only [eraseKey, if_neg hne, slice_remove]
        rw [h4]
      | inr j =>
        have h2 : searchIdx icmp ((k, w) :: rest) key = Sum.inr (j + 1) := by
          simp [searchIdx, h0, h1]
        rw [delete_leaf_of_inr _ _ _ h2]
        have h3 := delete_leaf_of_inr rest key j h1
        rw [ih hrest] at h3
        have h4 : eraseKey rest key = rest := by simpa using h3
        simp only [eraseKey, if_neg hne]
        rw [h4]


theorem mem_eraseKey {V : Type} (l : List (Int × V)) (key : Int) (x : Int × V) :
    x ∈ eraseKey l key → x ∈ l := by
  induction l with
  | nil => intro h; simp [eraseKey] at h
  | cons p rest ih =>
    obtain ⟨k, w⟩ := p
    intro h
    simp only [eraseKey] at h
    by_cases hk : k = key
    · rw [if_pos hk] at h; exact List.mem_cons_of_mem _ h
    · rw [if_neg hk] at h
      rcases List.mem_cons.mp h with h | h
      · simp [h]
      · exact List.mem_cons_of_mem _ (ih h)

theorem sorted_eraseKey {V : Type} (l : List (Int × V)) (key : Int)
    (hs : sortedEntries l) : sortedEntries (eraseKey l key) := by
  induction l with
  | nil => simpa [eraseKey] using hs
  | cons p rest ih =>
    obtain ⟨k, w⟩ := p
    rw [sortedEntries, List.pairwise_cons] at hs
    obtain ⟨hk, hrest⟩ := hs
    simp only [eraseKey]
    by_cases hkey : k = key
    · rw [if_pos hkey]; exact hrest
    · rw [if_neg hkey]
      rw [sortedEntries, List.pairwise_cons]
      exact ⟨fun x hx => hk x (mem_eraseKey rest key x hx), ih hrest⟩

theorem length_eraseKey {V : Type} (l : List (Int × V)) (key : Int) :
    (eraseKey l key).length ≤ l.length := by
  induction l with
  | nil => simp [eraseKey]
  | cons p rest ih =>
    obtain ⟨k, w⟩ := p
    simp only [eraseKey]
    by_cases hkey : k = key
    · rw [if_pos hkey]; simp
    · rw [if_neg hkey]; simpa using ih

theorem lookup_erase_self {V : Type} (l : List (Int × V)) (key : Int)
    (hs : sortedEntries l) : lookupKey (eraseKey l key) key = none := by
  induction l with
  | nil => simp [eraseKey, lookupKey]
  | cons p rest ih =>
    obtain ⟨k, w⟩ := p
    rw [sortedEntries, List.pairwise_cons] at hs
    obtain ⟨hk, hrest⟩ := hs
    simp only [eraseKey]
    by_cases hkey : k = key
    · rw [if_pos hkey]
      subst hkey
      exact lookup_none_of_all_gt rest k fun q hq => hk q hq
    · rw [if_neg hkey]
      simp only [lookupKey, if_neg hkey]
      exact ih hrest

theorem lookup_erase_other {V : Type} (l : List (Int × V)) (key k2 : Int)
    (hne : k2 ≠ key) : lookupKey (eraseKey l key) k2 = lookupKey l k2 := by
  induction l with
  | nil => rfl
  | cons p rest ih =>
    obtain ⟨k, w⟩ := p
    simp only [eraseKey]
    by_cases hkey : k = key
    · rw [if_pos hkey]
      simp only [lookupKey]
      rw [if_neg (by omega)]
    · rw [if_neg hkey]
      simp only [lookupKey]
      by_cases hk2 : k = k2
      · rw [if_pos hk2, if_pos hk2]
      · rw [if_neg hk2, if_neg hk2]; exact ih

theorem erase_of_lookup_none {V : Type} (l : List (Int × V)) (key : Int)
    (h : lookupKey l key = none) : eraseKey l key = l := by
  induction l with
  | nil => rfl
  | cons p rest ih =>
    obtain ⟨k, w⟩ := p
    simp only [lookupKey] at h
    by_cases hkey : k = key
    · rw [if_pos hkey] at h; simp at h
    · rw [if_neg hkey] at h
      simp only [eraseKey, if_neg hkey]
      rw [ih h]

theorem insert_leaf_of_inl {V : Type} (l : List (Int × V)) (key : Int) (value : V)
    (i : Nat) (h : searchIdx icmp l key = Sum.inl i) :
    Node.insert icmp (Node.leaf l) key value = some (Node.leaf (l.set i (key, value))) := by
  simp [Node.insert, h]

theorem insert_leaf_of_inr_room {V : Type} (l : List (Int × V)) (key : Int) (value : V)
    (i : Nat) (h : searchIdx icmp l key = Sum.inr i) (hlen : l.length < maxValuesPerLeaf) :
    Node.insert icmp (Node.leaf l) key value
      = some (Node.leaf (slice_insert l i (key, value))) := by
  simp [Node.insert, h, hlen]

theorem insert_leaf_of_inr_full {V : Type} (l : List (Int × V)) (key : Int) (value : V)
    (i : Nat) (h : searchIdx icmp l key = Sum.inr i) (hlen : ¬l.length < maxValuesPerLeaf) :
    Node.insert icmp (Node.leaf l) key value = none := by
  have htake : leafFrom (l.take (maxValuesPerLeaf / 2)) = none := by
    simp only [leafFrom, maxValuesPerLeaf, List.length_take]
    rw [if_neg (by omega)]
  simp [Node.insert, h, hlen, htake]

theorem reach_LeafInv {V : Type} (t : BeTree Int V) (h : Reach t) : LeafInv t := by
  induction h with
  | new => exact ⟨[], rfl, by simp [sortedEntries], by simp [maxValuesPerLeaf]⟩
  | insert t t' key value _ hins ih =>
    obtain ⟨l, hroot, hs, hlen⟩ := ih
    rw [BeTree.insert, hroot] at hins
    cases h1 : searchIdx icmp l key with
    | inl i =>
      rw [insert_leaf_of_inl l key value i h1] at hins
      simp at hins
      refine ⟨l.set i (key, value), ?_, sorted_set l key value i hs h1, by simpa using hlen⟩
      rw [← hins]
    | inr i =>
      by_cases hroom : l.length < maxValuesPerLeaf
      · rw [insert_leaf_of_inr_room l key value i h1 hroom] at hins
        simp at hins
        refine ⟨slice_insert l i (key, value), ?_,
          sorted_slice_insert l key value i hs h1, ?_⟩
        · rw [← hins]
        · rw [length_slice_insert l i _ (searchIdx_inr_le l key i h1)]; omega
      · rw [insert_leaf_of_inr_full l key value i h1 hroom] at hins
        simp at hins
  | delete t t' key _ hdel ih =>
    obtain ⟨l, hroot, hs, hlen⟩ := ih
    rw [BeTree.delete, hroot, delete_erase l key hs] at hdel
    simp at hdel
    refine ⟨eraseKey l key, ?_, sorted_eraseKey l key hs, ?_⟩
    · rw [← hdel]
    · have := length_eraseKey l key; omega
  | clear t _ _ =>
    refine ⟨[], ?_, by simp [sortedEntries], by simp [maxValuesPerLeaf]⟩
    obtain ⟨root⟩ := t
    cases root <;> rfl


theorem pivotListInd {K V : Type} {motive : PivotList K V → Prop}
    (hnil : motive PivotList.nil)
    (hcons : ∀ (mk : K) (c : Node K V) (rest : PivotList K V),
      motive rest → motive (PivotList.cons mk c rest))
    (ps : PivotList K V) : motive ps :=
  @PivotList.rec K V (fun _ => True) motive (fun _ _ => trivial) (fun _ => trivial)
    hnil (fun mk c rest _ ih => hcons mk c rest ih) ps

theorem nodeMutualInd {K V : Type} {mn : Node K V → Prop} {mp : PivotList K V → Prop}
    (hb : ∀ ps, mp ps → mn (Node.branch ps))
    (hl : ∀ l, mn (Node.leaf l))
    (hnil : mp PivotList.nil)
    (hcons : ∀ mk c rest, mn c → mp rest → mp (PivotList.cons mk c rest)) :
    (∀ n, mn n) ∧ (∀ ps, mp ps) :=
  ⟨fun n => @Node.rec K V mn mp hb hl hnil hcons n,
   fun ps => @PivotList.rec K V mn mp hb hl hnil hcons ps⟩

theorem pivotget_eq_route {V : Type} (ps : PivotList Int V) (key : Int) :
    PivotList.get icmp ps key =
      (match routeFirstGE icmp ps key with
       | some c => Node.get icmp c key
       | none => none) := by
  induction ps using pivotListInd with
  | hnil => rfl
  | hcons mk c rest ih =>
    simp only [PivotList.get, routeFirstGE]
    by_cases h : kle icmp key mk = true
    · simp [h]
    · simp only [Bool.not_eq_true] at h
      simp [h, ih]

theorem route_none_of_all_lt {V : Type} (ps : PivotList Int V) (key : Int)
    (h : ∀ mk ∈ ps.keys, mk < key) : routeFirstGE icmp ps key = none := by
  induction ps using pivotListInd with
  | hnil => rfl
  | hcons mk c rest ih =>
    have hmk : mk < key := h mk (by simp [PivotList.keys])
    simp only [routeFirstGE]
    rw [if_neg (by simp [kle_icmp]; omega)]
    exact ih fun x hx => h x (by simp [PivotList.keys]; tauto)

theorem keys_insert_sub {V : Type} (key : Int) (value : V) :
    ∀ (ps : PivotList Int V), ∀ ps', PivotList.insert icmp ps key value = some ps' →
      ∀ x ∈ ps'.keys, x ∈ ps.keys ∨ x = key := by
  intro ps
  induction ps using pivotListInd with
  | hnil =>
    intro ps' h x hx
    simp only [PivotList.insert] at h
    simp at h
    rw [← h] at hx
    simp [PivotList.keys] at hx
    simp [hx]
  | hcons mk c rest ih =>
    intro ps' h x hx
    simp only [PivotList.insert] at h
    by_cases hle : kle icmp key mk = true
    · rw [if_pos hle] at h
      rw [Option.map_eq_some'] at h
      obtain ⟨c2, _, hps'⟩ := h
      rw [← hps'] at hx
      simp [PivotList.keys] at hx
      rcases hx with hx | hx
      · simp [hx]
      · simp [PivotList.keys, hx]
    · rw [if_neg hle] at h
      rw [Option.map_eq_some'] at h
      obtain ⟨r, hr, hps'⟩ := h
      rw [← hps'] at hx
      simp [PivotList.keys] at hx
      rcases hx with hx | hx
      · simp [PivotList.keys, hx]
      · rcases ih r hr x hx with h2 | h2
        · simp [PivotList.keys, h2]
        · simp [h2]


theorem keysSorted_cons (x : Int) (xs : List Int) :
    keysSorted (x :: xs) = true ↔ (∀ y ∈ xs, x < y) ∧ keysSorted xs = true := by
  simp [keysSorted]

theorem insert_BS_mutual {V : Type} :
    (∀ n : Node Int V, ∀ key value n', nodeBS n = true →
        Node.insert icmp n key value = some n' → nodeBS n' = true) ∧
    (∀ ps : PivotList Int V, ∀ key value ps',
        keysSorted ps.keys = true → pivotsAllBS ps = true →
        PivotList.insert icmp ps key value = some ps' →
        keysSorted ps'.keys = true ∧ pivotsAllBS ps' = true) := by
  refine nodeMutualInd ?_ ?_ ?_ ?_
  · -- branch
    intro ps hps key value n' hbs hins
    simp only [Node.insert, Option.map_eq_some'] at hins
    obtain ⟨ps', hps'eq, hn'⟩ := hins
    simp only [nodeBS, Bool.and_eq_true] at hbs
    rw [← hn']
    simp only [nodeBS, Bool.and_eq_true]
    exact hps key value ps' hbs.1 hbs.2 hps'eq
  · -- leaf
    intro l key value n' _ hins
    cases h1 : searchIdx icmp l key with
    | inl i =>
      rw [insert_leaf_of_inl l key value i h1] at hins
      simp at hins
      rw [← hins]
      simp [nodeBS]
    | inr i =>
      by_cases hroom : l.length < maxValuesPerLeaf
      · rw [insert_leaf_of_inr_room l key value i h1 hroom] at hins
        simp at hins
        rw [← hins]
        simp [nodeBS]
      · rw [insert_leaf_of_inr_full l key value i h1 hroom] at hins
        simp at hins
  · -- nil
    intro key value ps' _ _ hins
    simp only [PivotList.insert] at hins
    simp at hins
    rw [← hins]
    simp [PivotList.keys, keysSorted, pivotsAllBS, nodeBS]
  · -- cons
    intro mk c rest ihc ihrest key value ps' hsorted hall hins
    simp only [PivotList.keys] at hsorted
    rw [keysSorted_cons] at hsorted
    obtain ⟨hmkall, hsortedrest⟩ := hsorted
    simp only [pivotsAllBS, Bool.and_eq_true] at hall
    obtain ⟨hc, hrest⟩ := hall
    simp only [PivotList.insert] at hins
    by_cases hle : kle icmp key mk = true
    · rw [if_pos hle] at hins
      rw [Option.map_eq_some'] at hins
      obtain ⟨c2, hc2, hps'⟩ := hins
      rw [← hps']
      have hkeymk : key ≤ mk := kle_icmp.mp hle
      constructor
      · simp only [PivotList.keys]
        rw [keysSorted_cons]
        exact ⟨fun y hy => lt_of_le_of_lt hkeymk (hmkall y hy), hsortedrest⟩
      · simp only [pivotsAllBS, Bool.and_eq_true]
        exact ⟨ihc key value c2 hc hc2, hrest⟩
    · rw [if_neg hle] at hins
      rw [Option.map_eq_some'] at hins
      obtain ⟨r, hr, hps'⟩ := hins
      rw [← hps']
      have hmkkey : mk < key := by
        have := kle_icmp_false (a := key) (b := mk)
        simp only [Bool.not_eq_true] at hle
        exact this.mp hle
      obtain ⟨hrs, hrb⟩ := ihrest key value r hsortedrest hrest hr
      constructor
      · simp only [PivotList.keys]
        rw [keysSorted_cons]
        refine ⟨fun y hy => ?_, hrs⟩
        rcases keys_insert_sub key value rest r hr y hy with h2 | h2
        · exact hmkall y h2
        · rw [h2]; exact hmkkey
      · simp only [pivotsAllBS, Bool.and_eq_true]
        exact ⟨hc, hrb⟩


theorem nodePNE_branch {V : Type} (ps : PivotList Int V) :
    nodePNE (Node.branch ps) = true ↔ ps ≠ PivotList.nil ∧ pneList ps = true := by
  cases ps <;> simp [nodePNE, pneList]

theorem insert_PNE_mutual {V : Type} :
    (∀ n : Node Int V, ∀ key value n', nodePNE n = true →
        Node.insert icmp n key value = some n' → nodePNE n' = true) ∧
    (∀ ps : PivotList Int V, ∀ key value ps', pneList ps = true →
        PivotList.insert icmp ps key value = some ps' →
        pneList ps' = true ∧ ps' ≠ PivotList.nil) := by
  refine nodeMutualInd ?_ ?_ ?_ ?_
  · -- branch
    intro ps hps key value n' hpne hins
    simp only [Node.insert, Option.map_eq_some'] at hins
    obtain ⟨ps', hps'eq, hn'⟩ := hins
    rw [nodePNE_branch] at hpne
    rw [← hn', nodePNE_branch]
    obtain ⟨h1, h2⟩ := hps key value ps' hpne.2 hps'eq
    exact ⟨h2, h1⟩
  · -- leaf
    intro l key value n' _ hins
    cases h1 : searchIdx icmp l key with
    | inl i =>
      rw [insert_leaf_of_inl l key value i h1] at hins
      simp at hins
      rw [← hins]
      simp [nodePNE]
    | inr i =>
      by_cases hroom : l.length < maxValuesPerLeaf
      · rw [insert_leaf_of_inr_room l key value i h1 hroom] at hins
        simp at hins
        rw [← hins]
        simp [nodePNE]
      · rw [insert_leaf_of_inr_full l key value i h1 hroom] at hins
        simp at hins
  · -- nil
    intro key value ps' _ hins
    simp only [PivotList.insert] at hins
    simp at hins
    rw [← hins]
    constructor
    · simp [pneList, nodePNE]
    · intro h
      cases h
  · -- cons
    intro mk c rest ihc ihrest key value ps' hpne hins
    simp only [pneList, Bool.and_eq_true] at hpne
    obtain ⟨hc, hrest⟩ := hpne
    simp only [PivotList.insert] at hins
    by_cases hle : kle icmp key mk = true
    · rw [if_pos hle, Option.map_eq_some'] at hins
      obtain ⟨c2, hc2, hps'⟩ := hins
      rw [← hps']
      refine ⟨?_, by intro h; cases h⟩
      simp only [pneList, Bool.and_eq_true]
      exact ⟨ihc key value c2 hc hc2, hrest⟩
    · rw [if_neg hle, Option.map_eq_some'] at hins
      obtain ⟨r, hr, hps'⟩ := hins
      rw [← hps']
      refine ⟨?_, by intro h; cases h⟩
      simp only [pneList, Bool.and_eq_true]
      exact ⟨hc, (ihrest key value r hrest hr).1⟩

theorem delete_PNE_mutual {V : Type} :
    (∀ n : Node Int V, ∀ key n', nodePNE n = true →
        Node.delete icmp n key = some n' → nodePNE n' = true) ∧
    (∀ ps : PivotList Int V, ∀ key ps', pneList ps = true →
        PivotList.delete icmp ps key = some ps' →
        pneList ps' = true ∧ (ps ≠ PivotList.nil → ps' ≠ PivotList.nil)) := by
  refine nodeMutualInd ?_ ?_ ?_ ?_
  · -- branch
    intro ps hps key n' hpne hdel
    simp only [Node.delete, Option.map_eq_some'] at hdel
    obtain ⟨ps', hps'eq, hn'⟩ := hdel
    rw [nodePNE_branch] at hpne
    rw [← hn', nodePNE_branch]
    obtain ⟨h1, h2⟩ := hps key ps' hpne.2 hps'eq
    exact ⟨h2 hpne.1, h1⟩
  · -- leaf
    intro l key n' _ hdel
    cases h1 : searchIdx icmp l key with
    | inl i =>
      rw [delete_leaf_of_inl l key i h1] at hdel
      simp at hdel
      rw [← hdel]
      simp [nodePNE]
    | inr i =>
      rw [delete_leaf_of_inr l key i h1] at hdel
      simp at hdel
      rw [← hdel]
      simp [nodePNE]
  · -- nil
    intro key ps' _ hdel
    simp only [PivotList.delete] at hdel
    simp at hdel
    rw [← hdel]
    exact ⟨rfl, fun h => absurd rfl h⟩
  · -- cons
    intro mk c rest ihc ihrest key ps' hpne hdel
    simp only [pneList, Bool.and_eq_true] at hpne
    obtain ⟨hc, hrest⟩ := hpne
    simp only [PivotList.delete] at hdel
    by_cases hle : kle icmp key mk = true
    · rw [if_pos hle] at hdel
      split at hdel
      next hd => simp at hdel
      next c2 hd =>
        split at hdel
        next hm => simp at hdel
        next mk2 hm =>
          simp at hdel
          rw [← hdel]
          refine ⟨?_, fun _ h2 => PivotList.noConfusion h2⟩
          simp only [pneList, Bool.and_eq_true]
          exact ⟨ihc key c2 hc hd, hrest⟩
    · rw [if_neg hle, Option.map_eq_some'] at hdel
      obtain ⟨r, hr, hps'⟩ := hdel
      rw [← hps']
      refine ⟨?_, fun _ h2 => PivotList.noConfusion h2⟩
      simp only [pneList, Bool.and_eq_true]
      exact ⟨hc, (ihrest key r hrest hr).1⟩


/-- Claim C1 (code bug, evaluation at the failing input): the round-trip
property — after a sequence of inserts with no intervening delete, `get` on
each inserted key returns the last value inserted for it — fails on the code.
Inserting the five distinct keys 0, 1, 2, 3, 4 into a fresh map panics during
the fifth insert: the leaf overflows and the split calls `LeafNode::from`,
whose `clone_from_slice` receives a 2-element half slice for the 4-slot
`elements` array.  The whole sequence is modelled as evaluating to `none`, so
no subsequent `get` can return the inserted values. -/
theorem c1_round_trip_panics :
    ((BeTree.insert icmp (BeTree.new : BeTree Int Char) 0 'a').bind fun t =>
     (BeTree.insert icmp t 1 'b').bind fun t =>
     (BeTree.insert icmp t 2 'c').bind fun t =>
     (BeTree.insert icmp t 3 'd').bind fun t =>
      BeTree.insert icmp t 4 'e') = none := rfl

/-- Claim C2 (code bug, evaluation at the failing input): inserting key 20 at
a branch whose only boundary is 10 does push a new rightmost pivot with
boundary 20, but its child is `LeafNode::empty()` rather than a single-entry
leaf holding the pair (20, b): the inserted value is dropped, and a subsequent
`get` of key 20 returns `none` instead of the inserted value. -/
theorem c2_rightmost_pivot_drops_value :
    Node.insert icmp
        (Node.branch (PivotList.cons 10 (Node.leaf [((10 : Int), 'a')]) PivotList.nil)) 20 'b'
      = some (Node.branch (PivotList.cons 10 (Node.leaf [(10, 'a')])
          (PivotList.cons 20 (Node.leaf []) PivotList.nil))) ∧
    Node.get icmp (Node.branch (PivotList.cons 10 (Node.leaf [((10 : Int), 'a')])
          (PivotList.cons 20 (Node.leaf []) PivotList.nil))) 20 = none := ⟨rfl, rfl⟩

/-- Claim C3 (code bug, evaluation at the failing input): inserting a fifth
distinct key into a full leaf does not produce the described two-pivot branch.
The split path panics inside `LeafNode::from`: `clone_from_slice` is called
with a 2-element half slice against the 4-slot `elements` array (second
conjunct), so the insert is modelled as `none` (first conjunct).  Even setting
the panic aside, `LeafNode::from` never assigns `len` (the halves would have
empty valid prefixes) and the triggering insertion is never retried. -/
theorem c3_split_panics :
    Node.insert icmp (Node.leaf [((0 : Int), 'a'), (1, 'b'), (2, 'c'), (3, 'd')]) 4 'e' = none ∧
    leafFrom [((0 : Int), 'a'), (1, 'b')] = none := ⟨rfl, rfl⟩

/-- Claim C4 (code bug, evaluation at the failing input): the public API is
not total.  Starting from `new()`, the sequence of five inserts with the
distinct keys 10, 20, 30, 40, 50 panics during the fifth insert (leaf overflow
reaches the panicking split), modelled as the sequence evaluating to
`none`. -/
theorem c4_insert_sequence_panics :
    ((BeTree.insert icmp (BeTree.new : BeTree Int Char) 10 'a').bind fun t =>
     (BeTree.insert icmp t 20 'b').bind fun t =>
     (BeTree.insert icmp t 30 'c').bind fun t =>
     (BeTree.insert icmp t 40 'd').bind fun t =>
      BeTree.insert icmp t 50 'e') = none := rfl

/-- Claim C5: on every map state reachable through the public API and for
every key, delete removes exactly that key: the delete completes normally (no
panic), a subsequent `get` of the deleted key returns `none`, `get` of every
other key is unchanged, and delete of an absent key — in particular on an
empty map — is a silent no-op that leaves the map unchanged. -/
theorem c5_delete_removes_exactly_one_key {V : Type} (t : BeTree Int V)
    (h : Reach t) (key : Int) :
    ∃ t', BeTree.delete icmp t key = some t' ∧
      BeTree.get icmp t' key = none ∧
      (∀ k2, k2 ≠ key → BeTree.get icmp t' k2 = BeTree.get icmp t k2) ∧
      (BeTree.get icmp t key = none → t' = t) := by
  obtain ⟨l, hroot, hs, _⟩ := reach_LeafInv t h
  refine ⟨⟨Node.leaf (eraseKey l key)⟩, ?_, ?_, ?_, ?_⟩
  · rw [BeTree.delete, hroot, delete_erase l key hs]; rfl
  · rw [BeTree.get]
    exact (get_lookup _ key (sorted_eraseKey l key hs)).trans (lookup_erase_self l key hs)
  · intro k2 hne
    rw [BeTree.get, BeTree.get, hroot]
    rw [get_lookup _ k2 (sorted_eraseKey l key hs), get_lookup l k2 hs]
    exact lookup_erase_other l key k2 hne
  · intro hnone
    rw [BeTree.get, hroot, get_lookup l key hs] at hnone
    rw [erase_of_lookup_none l key hnone]
    obtain ⟨root⟩ := t
    simp only at hroot
    rw [hroot]

/-- Witness for C5 at the concrete reachable state `new()` and key 0. -/
theorem c5_witness :
    ∃ t', BeTree.delete icmp (BeTree.new : BeTree Int Char) 0 = some t' ∧
      BeTree.get icmp t' 0 = none ∧
      (∀ k2, k2 ≠ 0 → BeTree.get icmp t' k2 = BeTree.get icmp (BeTree.new : BeTree Int Char) k2) ∧
      (BeTree.get icmp (BeTree.new : BeTree Int Char) 0 = none → t' = BeTree.new) :=
  c5_delete_removes_exactly_one_key BeTree.new Reach.new 0

/-- Claim C6: the routing rule of `get`.  At a branch whose boundaries are
ascending, `get` descends into exactly the first pivot whose boundary is
greater than or equal to the searched key (the child selected by
`routeFirstGE`, the routing rule as worded in the spec), and it returns `none`
without descending when the key exceeds every pivot boundary. -/
theorem c6_routing_rule {V : Type} (ps : PivotList Int V) (key : Int)
    (_hsorted : keysSorted ps.keys = true) :
    Node.get icmp (Node.branch ps) key =
      (match routeFirstGE icmp ps key with
       | some c => Node.get icmp c key
       | none => none) ∧
    ((∀ mk ∈ ps.keys, mk < key) → Node.get icmp (Node.branch ps) key = none) := by
  have h1 : Node.get icmp (Node.branch ps) key = PivotList.get icmp ps key := rfl
  refine ⟨?_, ?_⟩
  · rw [h1, pivotget_eq_route]
  · intro h
    rw [h1, pivotget_eq_route, route_none_of_all_lt ps key h]

/-- Witness for C6 at a concrete sorted two-pivot branch and key 8. -/
theorem c6_witness :
    (Node.get icmp (Node.branch c6ps) 8 =
      (match routeFirstGE icmp c6ps 8 with
       | some c => Node.get icmp c 8
       | none => none)) ∧
    ((∀ mk ∈ c6ps.keys, mk < 8) → Node.get icmp (Node.branch c6ps) 8 = none) :=
  c6_routing_rule c6ps 8 (by rfl)

/-- Claim C7: `clear` empties the map.  Whatever the root variant, the
cleared map equals a freshly constructed one (hence is observationally
equivalent to it), its root is an empty leaf, and every subsequent `get`, on
any key, returns `none`, exactly as on a fresh map. -/
theorem c7_clear_empties_map {V : Type} (t : BeTree Int V) :
    BeTree.clear t = BeTree.new ∧ (BeTree.clear t).root = Node.leaf [] ∧
      ∀ key, BeTree.get icmp (BeTree.clear t) key = none ∧
        BeTree.get icmp (BeTree.new : BeTree Int V) key = none := by
  obtain ⟨root⟩ := t
  have hclear : BeTree.clear ⟨root⟩ = BeTree.new := by cases root <;> rfl
  exact ⟨hclear, by rw [hclear]; rfl, fun key => ⟨by rw [hclear]; rfl, rfl⟩⟩

/-- Claim C8 (invariant (c)): in every map state reachable through `new`,
`insert`, `delete` and `clear`, the pivots of every branch node are strictly
ascending by boundary key.  Moreover `insert` preserves strict ascension on
every node satisfying it — this covers the boundary-lowering on the selected
pivot and the rightmost push — and `delete` keeps it on every reachable
state. -/
theorem c8_branch_keys_sorted {V : Type} :
    (∀ t : BeTree Int V, Reach t → nodeBS t.root = true) ∧
    (∀ (n : Node Int V) key value n', nodeBS n = true →
        Node.insert icmp n key value = some n' → nodeBS n' = true) ∧
    (∀ (t t' : BeTree Int V) key, Reach t → BeTree.delete icmp t key = some t' →
        nodeBS t'.root = true) := by
  refine ⟨?_, insert_BS_mutual.1, ?_⟩
  · intro t h
    obtain ⟨l, hroot, _, _⟩ := reach_LeafInv t h
    rw [hroot]; rfl
  · intro t t' key h hdel
    obtain ⟨l, hroot, _, _⟩ := reach_LeafInv t' (Reach.delete t t' key h hdel)
    rw [hroot]; rfl

/-- Witness for C8: the insert-preservation part applied to the concrete
sorted branch `c8before`, key 3 and value z. -/
theorem c8_witness : nodeBS c8after = true :=
  (c8_branch_keys_sorted (V := Char)).2.1 c8before 3 'z' c8after (by rfl) (by rfl)

/-- Claim C9 (code bug, evaluation at the failing input): when insert finds
the key already present in a leaf, the code executes
`leaf.elements[i] = (key, value)`, overwriting the stored key object with the
argument key — contrary to the claim (and to the doc comment of
`BeTree::insert`) that the key itself is left untouched.  With a key type
whose order compares only the first component, the keys (5, 0) and (5, 1) are
order-equal yet distinct objects, and the replacing insert swaps the stored
key object (5, 0) for (5, 1).  The leaf length and all other entries are
indeed unchanged, as the result shows. -/
theorem c9_replace_overwrites_stored_key :
    tagcmp (5, 0) (5, 1) = Ordering.eq ∧ ((5, 0) : Int × Int) ≠ (5, 1) ∧
    Node.insert tagcmp (Node.leaf [(((5 : Int), (0 : Int)), 'x')]) (5, 1) 'y'
      = some (Node.leaf [((5, 1), 'y')]) := ⟨rfl, by decide, rfl⟩

/-- Claim C10: every branch node in every reachable state has a non-empty
pivot list; `insert` and `delete` preserve non-emptiness of every branch in
the subtree (branches are created non-empty and no operation removes a
pivot), and `min_key` on a branch with a non-empty pivot list returns its
first boundary, so the unchecked `p[0]` access and the boundary refresh after
delete never touch an empty pivot vector. -/
theorem c10_pivots_nonempty {V : Type} :
    (∀ t : BeTree Int V, Reach t → nodePNE t.root = true) ∧
    (∀ (n : Node Int V) key value n', nodePNE n = true →
        Node.insert icmp n key value = some n' → nodePNE n' = true) ∧
    (∀ (n : Node Int V) key n', nodePNE n = true →
        Node.delete icmp n key = some n' → nodePNE n' = true) ∧
    (∀ (mk : Int) (c : Node Int V) rest,
        Node.min_key (Node.branch (PivotList.cons mk c rest)) = some mk) := by
  refine ⟨?_, insert_PNE_mutual.1, delete_PNE_mutual.1, fun mk c rest => rfl⟩
  intro t h
  obtain ⟨l, hroot, _, _⟩ := reach_LeafInv t h
  rw [hroot]; rfl

/-- Witness for C10: the delete-preservation part applied to the concrete
one-pivot branch `c10before` and key 2. -/
theorem c10_witness : nodePNE c10after = true :=
  (c10_pivots_nonempty (V := Char)).2.2.1 c10before 2 c10after (by rfl) (by rfl)

end BeTreeModel
